import Mathlib

/-!
Verification of the transcribe repository's core:
secure deletion, encryption at rest, recording finalization,
and the benchmark scoring engine (normalization, WER, aggregation).

Python source files are shallowly embedded: file contents are byte lists,
the filesystem is an association list from paths to contents, external
effects (random bytes, OS errors, wall-clock timings, model outputs) are
explicit inputs, and Python exceptions are explicit outcome values.
-/

/-- A filesystem: an association list from paths to file contents (byte lists). -/
def FS := List (String × List Nat)

/-- Read a file's content, `none` when the path does not exist (`os.path.exists` false). -/
def fsRead : FS → String → Option (List Nat)
| [], _ => none
| (q, c) :: rest, p => if q = p then some c else fsRead rest p

/-- Write (create or replace) a file's content. -/
def fsWrite : FS → String → List Nat → FS
| [], p, c => [(p, c)]
| (q, c0) :: rest, p, c => if q = p then (q, c) :: rest else (q, c0) :: fsWrite rest p c

/-- Remove a path from the filesystem (`os.remove`). -/
def fsRemove : FS → String → FS
| [], _ => []
| (q, c) :: rest, p => if q = p then fsRemove rest p else (q, c) :: fsRemove rest p

/-- Writing `new` at offset 0 into a file holding `old` (mode `r+b`): the
prefix is replaced, any remaining suffix of the old content survives. -/
def writeAt0 (old new : List Nat) : List Nat :=
new ++ old.drop new.length

theorem fsRead_fsWrite (fs : FS) (p : String) (c : List Nat) :
    fsRead (fsWrite fs p c) p = some c := by
  induction fs with
  | nil => simp [fsWrite, fsRead]
  | cons hd tl ih =>
      obtain ⟨q, c0⟩ := hd
      by_cases h : q = p <;> simp [fsWrite, fsRead, h, ih]

theorem fsRead_fsRemove (fs : FS) (p : String) :
    fsRead (fsRemove fs p) p = none := by
  induction fs with
  | nil => simp [fsRemove, fsRead]
  | cons hd tl ih =>
      obtain ⟨q, c0⟩ := hd
      by_cases h : q = p <;> simp [fsRemove, fsRead, h, ih]

/-- Message printed by `secure_delete` on its three exit paths. -/
inductive DelMsg
| notExistMsg
| deletedMsg
| errorPrinted
deriving DecidableEq, Repr

/-- Outcome of a Python call as seen by the caller: either the function
returns normally (here always returning `None`, with only a printed
message differing between paths), or an exception propagates out. -/
inductive PyOutcome
| returnedNone : DelMsg → PyOutcome
| raised : String → PyOutcome
deriving DecidableEq, Repr

/-- Content of the file after `k` overwrite passes of `secure_delete`;
pass `k` seeks to offset 0 and writes `rand k`, the bytes returned by the
`k`-th call of `os.urandom`. -/
def passContent (content : List Nat) (rand : Nat → List Nat) : Nat → List Nat
| 0 => content
| k + 1 => writeAt0 (passContent content rand k) (rand k)

/-- Shallow embedding of `transcribe_app/secure_delete.py::secure_delete`.
External effects are inputs: `rand k` is the byte string returned by the
`k`-th `os.urandom(file_size)` call, `writeRaisesAt` injects an OS error on
the given overwrite pass (before its bytes are written), and `removeRaises`
injects an OS error on the final `os.remove` (e.g. the file is held open).
The body's `try/except` catches every exception and prints; the function
returns `None` on every path, so the outcome is always `returnedNone`. -/
def secure_delete (fs : FS) (filePath : String) (passes : Nat) (rand : Nat → List Nat)
    (writeRaisesAt : Option Nat) (removeRaises : Bool) : FS × PyOutcome :=
match fsRead fs filePath with
| none => (fs, .returnedNone .notExistMsg)
| some content =>
    match writeRaisesAt with
    | some k =>
        if k < passes then
          (fsWrite fs filePath (passContent content rand k), .returnedNone .errorPrinted)
        else
          let final := passContent content rand passes
          if removeRaises then
            (fsWrite fs filePath final, .returnedNone .errorPrinted)
          else
            (fsRemove (fsWrite fs filePath final) filePath, .returnedNone .deletedMsg)
    | none =>
        let final := passContent content rand passes
        if removeRaises then
          (fsWrite fs filePath final, .returnedNone .errorPrinted)
        else
          (fsRemove (fsWrite fs filePath final) filePath, .returnedNone .deletedMsg)

theorem passContent_eq_rand (content : List Nat) (rand : Nat → List Nat)
    (hlen : ∀ i, (rand i).length = content.length) :
    ∀ k, passContent content rand (k + 1) = rand k := by
  have hsize : ∀ k, (passContent content rand k).length = content.length := by
    intro k
    induction k with
    | zero => rfl
    | succ n ih => simp [passContent, writeAt0, hlen, ih]
  intro k
  simp [passContent, writeAt0, hlen k, ← hsize k]

/-- Claim C1 counterexample: on a concrete run where the final removal fails
(`removeRaises`), `secure_delete` does not report any error condition to the
caller: it returns normally (the same `None` return as a successful run, with
the failure only printed), and the file is left behind overwritten.  The
claimed `EraseError` outcome would be `PyOutcome.raised`, which never occurs. -/
theorem C1_counterexample :
    secure_delete [("rec.wav", [1, 2, 3])] "rec.wav" 3 (fun _ => [0, 0, 0]) none true
      = ([("rec.wav", [0, 0, 0])], .returnedNone .errorPrinted) ∧
    (secure_delete [("rec.wav", [1, 2, 3])] "rec.wav" 3 (fun _ => [0, 0, 0]) none true).2
      ≠ PyOutcome.raised "EraseError" := by
  exact ⟨rfl, by decide⟩

/-- Claim C1 (amended): when an overwrite pass or the final removal fails,
`secure_delete` catches the exception and merely prints an error message;
the call returns normally exactly as on success (no exception and no error
value reach the caller), and the file is left on disk. -/
theorem C1_amended (fs : FS) (p : String) (passes : Nat) (rand : Nat → List Nat)
    (content : List Nat) (hread : fsRead fs p = some content) :
    (∀ k, k < passes →
      secure_delete fs p passes rand (some k) false
        = (fsWrite fs p (passContent content rand k), .returnedNone .errorPrinted)) ∧
    secure_delete fs p passes rand none true
      = (fsWrite fs p (passContent content rand passes), .returnedNone .errorPrinted) ∧
    (∀ wfail rfail e, (secure_delete fs p passes rand wfail rfail).2 ≠ PyOutcome.raised e) := by
  refine ⟨?_, ?_, ?_⟩
  · intro k hk
    simp [secure_delete, hread, hk]
  · simp [secure_delete, hread]
  · intro wfail rfail e
    cases wfail with
    | none =>
        cases rfail <;> simp [secure_delete, hread]
    | some k =>
        by_cases hk : k < passes <;> cases rfail <;> simp [secure_delete, hread, hk]

theorem C1_witness :
    fsRead [("a.wav", [7])] "a.wav" = some [7] ∧
    secure_delete [("a.wav", [7])] "a.wav" 2 (fun _ => [9]) none true
      = (fsWrite [("a.wav", [7])] "a.wav" (passContent [7] (fun _ => [9]) 2),
         .returnedNone .errorPrinted) :=
  ⟨rfl, (C1_amended [("a.wav", [7])] "a.wav" 2 (fun _ => [9]) [7] rfl).2.1⟩

/-- Claim C8: on a nonexistent path `secure_delete` is a no-op success; on an
existing file with `passes ≥ 1` and no injected failure, every pass `i`
leaves the file holding exactly `rand i` (the fresh random bytes of the
original file length), and afterwards the file has been removed, so the final
filesystem no longer contains the path and the content present just before
removal was the last pass's random bytes, not the original data. -/
theorem C8_theorem (fs : FS) (p : String) (passes : Nat) (rand : Nat → List Nat)
    (content : List Nat) :
    (fsRead fs p = none →
      secure_delete fs p passes rand none false = (fs, .returnedNone .notExistMsg)) ∧
    (fsRead fs p = some content → 1 ≤ passes →
      (∀ i, (rand i).length = content.length) →
      secure_delete fs p passes rand none false
        = (fsRemove (fsWrite fs p (rand (passes - 1))) p, .returnedNone .deletedMsg) ∧
      (∀ i, passContent content rand (i + 1) = rand i) ∧
      fsRead (secure_delete fs p passes rand none false).1 p = none) := by
  constructor
  · intro hnone
    simp [secure_delete, hnone]
  · intro hread hpasses hlen
    have hpass := passContent_eq_rand content rand hlen
    have hfinal : passContent content rand passes = rand (passes - 1) := by
      obtain ⟨m, rfl⟩ := Nat.exists_eq_add_of_le hpasses
      simpa [Nat.add_comm] using hpass m
    refine ⟨?_, hpass, ?_⟩
    · simp [secure_delete, hread, hfinal]
    · simp [secure_delete, hread, hfinal, fsRead_fsRemove]

theorem C8_witness :
    (secure_delete [] "gone.wav" 3 (fun _ => []) none false
      = ([], .returnedNone .notExistMsg)) ∧
    (secure_delete [("s.wav", [4, 5])] "s.wav" 3 (fun i => [i, i]) none false
      = (fsRemove (fsWrite [("s.wav", [4, 5])] "s.wav" [2, 2]) "s.wav",
         .returnedNone .deletedMsg)) :=
  ⟨(C8_theorem [] "gone.wav" 3 (fun _ => []) []).1 rfl,
   ((C8_theorem [("s.wav", [4, 5])] "s.wav" 3 (fun i => [i, i]) [4, 5]).2 rfl
      (by decide) (fun i => rfl)).1⟩

/-- Error raised inside the CryptoVault operations: a missing input file is a
generic I/O failure (`FileNotFoundError`), while `invalidToken` is the
`cryptography.fernet.InvalidToken` authentication failure raised by
`Fernet.decrypt` — a distinct error, distinguishable from generic I/O. -/
inductive CryptoErr
| fileNotFound : String → CryptoErr
| invalidToken : CryptoErr
deriving DecidableEq, Repr

/-- Modelled from the spec: the `Fernet` primitive of the third-party
`cryptography` library (not part of this repository).  The spec contracts it
as authenticated symmetric encryption: decrypting with the encrypting key
restores the plaintext, and any other key fails authentication.  The model
therefore records the encrypting key alongside the payload so that the
authentication check on decryption is executable. -/
def fernetEncrypt (key : Nat) (data : List Nat) : List Nat :=
key :: data

/-- Modelled from the spec: `Fernet(key).decrypt(token)` — succeeds with the
original plaintext exactly when `token` was produced under the same key,
and raises `InvalidToken` otherwise (wrong key or tampering). -/
def fernetDecrypt (key : Nat) (token : List Nat) : Except CryptoErr (List Nat) :=
match token with
| [] => .error .invalidToken
| k :: rest => if k = key then .ok rest else .error .invalidToken

/-- Modelled from the spec: `generate_key` returns a fresh random symmetric
key; the entropy drawn from the OS is the explicit input. -/
def generate_key (entropy : Nat) : Nat :=
entropy

/-- Shallow embedding of `transcribe_app/security.py::encrypt_file`: read the
whole input file, encrypt with the key, write the ciphertext to the output
path.  An absent input file raises before anything is written. -/
def encrypt_file (fs : FS) (inputFilename outputFilename : String) (key : Nat) :
    Except CryptoErr FS :=
match fsRead fs inputFilename with
| none => .error (.fileNotFound inputFilename)
| some data => .ok (fsWrite fs outputFilename (fernetEncrypt key data))

/-- Shallow embedding of `transcribe_app/security.py::decrypt_file`: read the
ciphertext file, decrypt with the key, write the plaintext to the output
path.  `Fernet.decrypt` raises before the output file is opened, so on an
authentication failure nothing is written. -/
def decrypt_file (fs : FS) (inputFilename outputFilename : String) (key : Nat) :
    Except CryptoErr FS :=
match fsRead fs inputFilename with
| none => .error (.fileNotFound inputFilename)
| some token =>
    match fernetDecrypt key token with
    | .error e => .error e
    | .ok data => .ok (fsWrite fs outputFilename data)

/-- Claim C3: for every byte string `data` and every key produced by
`generate_key`, encrypting a file holding `data` and then decrypting the
ciphertext file with the same key succeeds and restores exactly `data` at
the output path. -/
theorem C3_theorem (fs : FS) (plainPath cipherPath outPath : String)
    (entropy : Nat) (data : List Nat) (hread : fsRead fs plainPath = some data) :
    ∃ fs1 fs2,
      encrypt_file fs plainPath cipherPath (generate_key entropy) = .ok fs1 ∧
      decrypt_file fs1 cipherPath outPath (generate_key entropy) = .ok fs2 ∧
      fsRead fs2 outPath = some data := by
  refine ⟨fsWrite fs cipherPath (fernetEncrypt (generate_key entropy) data),
          fsWrite (fsWrite fs cipherPath (fernetEncrypt (generate_key entropy) data))
            outPath data, ?_, ?_, ?_⟩
  · simp [encrypt_file, hread]
  · simp [decrypt_file, fsRead_fsWrite, fernetEncrypt, fernetDecrypt]
  · exact fsRead_fsWrite _ _ _

theorem C3_witness :
    fsRead [("p.wav", [1, 2])] "p.wav" = some [1, 2] ∧
    (∃ fs1 fs2,
      encrypt_file [("p.wav", [1, 2])] "p.wav" "c.enc" (generate_key 7) = .ok fs1 ∧
      decrypt_file fs1 "c.enc" "o.wav" (generate_key 7) = .ok fs2 ∧
      fsRead fs2 "o.wav" = some [1, 2]) :=
  ⟨rfl, C3_theorem [("p.wav", [1, 2])] "p.wav" "c.enc" "o.wav" 7 [1, 2] rfl⟩

/-- Claim C4: decrypting a ciphertext produced under `key1` with a distinct
`key2` fails deterministically with the authentication error `invalidToken`
(a `DecryptionError` distinct from every generic I/O `fileNotFound` error),
and a `decrypt_file` call can only ever write the authenticated plaintext:
whenever it returns a filesystem, the output path holds the unique byte
string whose decryption under the supplied key succeeded, so corrupt
plaintext is never silently written. -/
theorem C4_theorem (fs fs1 : FS) (plainPath cipherPath outPath : String)
    (key1 key2 : Nat) (hkeys : key1 ≠ key2)
    (henc : encrypt_file fs plainPath cipherPath key1 = .ok fs1) :
    decrypt_file fs1 cipherPath outPath key2 = .error .invalidToken ∧
    (∀ p, (CryptoErr.invalidToken : CryptoErr) ≠ .fileNotFound p) ∧
    (∀ gs gs' inP outP k, decrypt_file gs inP outP k = .ok gs' →
      ∃ token data, fsRead gs inP = some token ∧
        fernetDecrypt k token = .ok data ∧ gs' = fsWrite gs outP data) := by
  refine ⟨?_, by intro p; simp, ?_⟩
  · obtain ⟨data, hdata, rfl⟩ :
        ∃ data, fsRead fs plainPath = some data ∧
          fs1 = fsWrite fs cipherPath (fernetEncrypt key1 data) := by
      unfold encrypt_file at henc
      cases hr : fsRead fs plainPath with
      | none => rw [hr] at henc; cases henc
      | some data => rw [hr] at henc; exact ⟨data, rfl, by cases henc; rfl⟩
    have : fernetDecrypt key2 (fernetEncrypt key1 data) = .error .invalidToken := by
      simp [fernetEncrypt, fernetDecrypt, hkeys]
    simp [decrypt_file, fsRead_fsWrite, this]
  · intro gs gs' inP outP k hok
    unfold decrypt_file at hok
    cases hr : fsRead gs inP with
    | none => rw [hr] at hok; cases hok
    | some token =>
        rw [hr] at hok
        dsimp only at hok
        cases hd : fernetDecrypt k token with
        | error e => rw [hd] at hok; cases hok
        | ok data =>
            rw [hd] at hok
            dsimp only at hok
            exact ⟨token, data, rfl, hd, by cases hok; rfl⟩

theorem C4_witness :
    (1 : Nat) ≠ 2 ∧
    encrypt_file [("p.wav", [9])] "p.wav" "c.enc" 1
      = .ok (fsWrite [("p.wav", [9])] "c.enc" (fernetEncrypt 1 [9])) ∧
    decrypt_file (fsWrite [("p.wav", [9])] "c.enc" (fernetEncrypt 1 [9])) "c.enc" "o.wav" 2
      = .error .invalidToken :=
  have h := C4_theorem [("p.wav", [9])]
    (fsWrite [("p.wav", [9])] "c.enc" (fernetEncrypt 1 [9]))
    "p.wav" "c.enc" "o.wav" 1 2 (by decide)
    (by simp [encrypt_file, fsRead, fernetEncrypt])
  ⟨by decide, by simp [encrypt_file, fsRead, fernetEncrypt], h.1⟩

/-- A finalized WAV file as rewritten by `stop_recording`: the 44-byte
canonical header records the channel count, a 2-byte (Int16) sample width and
the sample rate, and the data chunk holds the payload bytes. -/
structure WavFile where
  channels : Nat
  sampleRate : Nat
  payload : List Nat
deriving DecidableEq, Repr

/-- Frame count of a WAV file as derived by the `wave` module on reading:
the data chunk size divided by the frame size `channels * sampwidth`
(integer division, sample width 2). -/
def wavFrames (w : WavFile) : Nat :=
w.payload.length / (w.channels * 2)

/-- Shallow embedding of
`transcribe_app/recording_manager.py::RecordingManager.stop_recording`
from the point where the captured PCM bytes have been read back from the
temporary file (`raw` is `audio_bytes.data()`; the audio device, timing and
logging effects are outside the decision flow).  The code returns `None`
when no bytes were captured, rewrites the WAV file with the true header and
the raw payload, and returns `None` (via the caught `RuntimeError`) when the
rewritten file reports 0 frames or reads back no audio data; otherwise it
returns the temporary file's path alongside which the rewritten file exists. -/
def stop_recording (fname : String) (channels sampleRate : Nat) (raw : List Nat) :
    Option (String × WavFile) :=
if raw.length = 0 then none
else
  let w : WavFile := ⟨channels, sampleRate, raw⟩
  let frames := wavFrames w
  if frames = 0 then none
  else
    let audioData := raw.take (frames * channels * 2)
    if audioData.isEmpty then none
    else some (fname, w)

/-- Claim C5 counterexample: a capture whose byte count is not a multiple of
the frame size (3 bytes, mono, 2-byte samples) still returns a file path,
and the finalized file's payload length (3) differs from
`frame_count * channels * 2` (= 2): the `wave` rewrite keeps every raw byte
while the header-derived frame count rounds down. -/
theorem C5_counterexample :
    stop_recording "tmp.wav" 1 44100 [5, 6, 7]
      = some ("tmp.wav", ⟨1, 44100, [5, 6, 7]⟩) ∧
    (WavFile.mk 1 44100 [5, 6, 7]).payload.length
      ≠ wavFrames ⟨1, 44100, [5, 6, 7]⟩ * 1 * 2 := by
  constructor
  · rfl
  · decide

/-- Claim C5 (amended): whenever the captured PCM byte count is a whole
number of frames (a multiple of `channels * 2`, as whole 16-bit frames
always are), every file path returned by `stop_recording` comes with a
finalized file satisfying `payload_bytes = frame_count * channels * 2` and
`frame_count > 0`; and when zero PCM bytes were captured, or the rewritten
file fails post-write verification (0 frames, or no audio data read back),
no path is returned. -/
theorem C5_amended (fname : String) (channels sampleRate : Nat) (raw : List Nat)
    (hdvd : channels * 2 ∣ raw.length) :
    (∀ fn w, stop_recording fname channels sampleRate raw = some (fn, w) →
      w.payload.length = wavFrames w * w.channels * 2 ∧ 0 < wavFrames w) ∧
    (raw.length = 0 → stop_recording fname channels sampleRate raw = none) ∧
    (wavFrames ⟨channels, sampleRate, raw⟩ = 0 →
      stop_recording fname channels sampleRate raw = none) := by
  refine ⟨?_, ?_, ?_⟩
  · intro fn w hsome
    unfold stop_recording at hsome
    by_cases hz : raw.length = 0
    · simp [hz] at hsome
    · rw [if_neg hz] at hsome
      by_cases hf : wavFrames ⟨channels, sampleRate, raw⟩ = 0
      · simp [hf] at hsome
      · rw [if_neg hf] at hsome
        by_cases ha : (raw.take (wavFrames ⟨channels, sampleRate, raw⟩ * channels * 2)).isEmpty
        · simp [ha] at hsome
        · rw [if_neg (by simpa using ha)] at hsome
          cases hsome
          refine ⟨?_, Nat.pos_of_ne_zero hf⟩
          show raw.length = raw.length / (channels * 2) * channels * 2
          rw [Nat.mul_assoc, Nat.div_mul_cancel hdvd]
  · intro hz
    simp [stop_recording, hz]
  · intro hf
    by_cases hz : raw.length = 0
    · simp [stop_recording, hz]
    · simp [stop_recording, hz, hf]

theorem C5_witness :
    (1 * 2 ∣ ([5, 6] : List Nat).length) ∧
    ((WavFile.mk 1 44100 [5, 6]).payload.length
        = wavFrames ⟨1, 44100, [5, 6]⟩ * 1 * 2 ∧
      0 < wavFrames ⟨1, 44100, [5, 6]⟩) ∧
    stop_recording "t.wav" 1 8000 [] = none :=
  ⟨by decide,
   (C5_amended "tmp.wav" 1 44100 [5, 6] (by decide)).1 "tmp.wav" ⟨1, 44100, [5, 6]⟩ rfl,
   (C5_amended "t.wav" 1 8000 [] (by decide)).2.1 rfl⟩

/-- Retry loop of `delete_recording`: `lockedAt i` says whether attempt `i`
finds the file locked (the test `open` or the removal raising
`PermissionError`).  The first unlocked attempt removes the file and returns
`True`; if every attempt is locked the loop ends and the function returns
`False` with the file still on disk. -/
def deleteAttempts (fs : FS) (f : String) (lockedAt : Nat → Bool) :
    Nat → Nat → FS × Bool
| 0, _ => (fs, false)
| n + 1, i => if lockedAt i then deleteAttempts fs f lockedAt n (i + 1)
              else (fsRemove fs f, true)

/-- Resolution of the deletion target: the explicit `filename` argument when
given, else the session temp file's name when a temp file object exists. -/
def resolveName (filenameArg tempName : Option String) : Option String :=
match filenameArg with
| some f => some f
| none => tempName

/-- Shallow embedding of
`transcribe_app/recording_manager.py::RecordingManager.delete_recording`.
`filenameArg` is the optional `filename` argument; `tempName` is
`self.temp_file.fileName()` when a temp file object exists.  A falsy
(missing or empty) resolved filename, or a path that does not exist on the
filesystem, returns `True` immediately; otherwise the bounded retry loop
runs. -/
def delete_recording (fs : FS) (filenameArg tempName : Option String)
    (maxAttempts : Nat) (lockedAt : Nat → Bool) : FS × Bool :=
match resolveName filenameArg tempName with
| none => (fs, true)
| some f =>
    if f = "" then (fs, true)
    else if fsRead fs f = none then (fs, true)
    else deleteAttempts fs f lockedAt maxAttempts 0

/-- Claim C10: whenever the resolved deletion target does not exist — no
filename argument and no (or an already-vanished) session temp file, or an
explicit path absent from the filesystem — `delete_recording` returns
success (`True`) with the filesystem untouched, so deleting an
already-deleted recording is idempotent success, not a failure. -/
theorem C10_theorem (fs : FS) (filenameArg tempName : Option String)
    (maxAttempts : Nat) (lockedAt : Nat → Bool)
    (hmissing : ∀ f, resolveName filenameArg tempName = some f → fsRead fs f = none) :
    delete_recording fs filenameArg tempName maxAttempts lockedAt = (fs, true) := by
  unfold delete_recording
  cases hres : resolveName filenameArg tempName with
  | none => rfl
  | some f =>
      have hnone := hmissing f hres
      by_cases hemp : f = "" <;> simp [hemp, hnone]

theorem C10_witness :
    delete_recording [("other.wav", [1])] none (some "gone.wav") 5 (fun _ => false)
      = ([("other.wav", [1])], true) :=
  C10_theorem [("other.wav", [1])] none (some "gone.wav") 5 (fun _ => false)
    (by intro f hf; simp [resolveName] at hf; subst hf; rfl)

/-- Modelled from the spec: the word-level Levenshtein distance computed by
the third-party `jiwer`/`rapidfuzz` scorer — the minimum number of
substitutions, insertions and deletions turning one token sequence into the
other (unit costs, standard recurrence). -/
def lev {α : Type} [DecidableEq α] : List α → List α → Nat
| [], ys => ys.length
| _ :: xs, [] => xs.length + 1
| x :: xs, y :: ys =>
    if x = y then lev xs ys
    else 1 + Nat.min (lev xs ys) (Nat.min (lev xs (y :: ys)) (lev (x :: xs) ys))
termination_by xs ys => xs.length + ys.length
decreasing_by all_goals (simp [List.length_cons]; try omega)

/-- An edit script from the first token list to the second of the given total
cost: matched tokens are free, substitutions, deletions and insertions each
cost one.  `Edits xs ys n` holds when some script of cost `n` exists, so the
minimum edit distance of the spec is the least such `n`. -/
inductive Edits {α : Type} : List α → List α → Nat → Prop
| nil : Edits [] [] 0
| copy (x : α) {xs ys : List α} {n : Nat} : Edits xs ys n → Edits (x :: xs) (x :: ys) n
| subst (x y : α) {xs ys : List α} {n : Nat} :
    Edits xs ys n → Edits (x :: xs) (y :: ys) (n + 1)
| delete (x : α) {xs ys : List α} {n : Nat} : Edits xs ys n → Edits (x :: xs) ys (n + 1)
| insert (y : α) {xs ys : List α} {n : Nat} : Edits xs ys n → Edits xs (y :: ys) (n + 1)

theorem edits_nil_left {α : Type} : ∀ ys : List α, Edits [] ys ys.length := by
  intro ys
  induction ys with
  | nil => exact .nil
  | cons y ys ih => exact .insert y ih

theorem edits_nil_right {α : Type} : ∀ xs : List α, Edits xs [] xs.length := by
  intro xs
  induction xs with
  | nil => exact .nil
  | cons x xs ih => exact .delete x ih

theorem lev_self {α : Type} [DecidableEq α] : ∀ xs : List α, lev xs xs = 0 := by
  intro xs
  induction xs with
  | nil => simp [lev]
  | cons x xs ih => simp [lev, ih]

theorem lev_nil_right {α : Type} [DecidableEq α] : ∀ xs : List α, lev xs [] = xs.length := by
  intro xs
  cases xs <;> simp [lev]

theorem lev_subst_le {α : Type} [DecidableEq α] (x y : α) (xs ys : List α) :
    lev (x :: xs) (y :: ys) ≤ lev xs ys + 1 := by
  by_cases hxy : x = y
  · simp [lev, hxy]
  · have h1 : Nat.min (lev xs ys) (Nat.min (lev xs (y :: ys)) (lev (x :: xs) ys))
        ≤ lev xs ys := Nat.min_le_left _ _
    simp only [lev, if_neg hxy]
    omega

theorem natMin_eq_left {a b : Nat} (h : a ≤ b) : Nat.min a b = a := by
  simp [Nat.min_def, h]

theorem natMin_eq_right {a b : Nat} (h : b ≤ a) : Nat.min a b = b := by
  simp [Nat.min_def]; omega

theorem le_two_add_min (d a b : Nat) (h1 : d ≤ 2 + a) (h2 : d ≤ 2 + b) :
    d ≤ 2 + Nat.min a b := by
  rcases Nat.le_total a b with h | h
  · rw [natMin_eq_left h]; exact h1
  · rw [natMin_eq_right h]; exact h2

/-- One-step bounds for the Levenshtein recurrence: adding or removing a
single leading token on either side changes the distance by at most one.
Proved simultaneously by strong induction on the total length. -/
theorem lev_cons_bounds {α : Type} [DecidableEq α] :
    ∀ N (xs ys : List α), xs.length + ys.length ≤ N →
      ((∀ x, lev (x :: xs) ys ≤ lev xs ys + 1) ∧
       (∀ y, lev xs (y :: ys) ≤ lev xs ys + 1) ∧
       (∀ x, lev xs ys ≤ lev (x :: xs) ys + 1) ∧
       (∀ y, lev xs ys ≤ lev xs (y :: ys) + 1)) := by
  intro N
  induction N with
  | zero =>
      intro xs ys h
      have hx : xs = [] := by cases xs <;> simp_all
      have hy : ys = [] := by cases ys <;> simp_all
      subst hx; subst hy
      refine ⟨?_, ?_, ?_, ?_⟩ <;> intro z <;> simp [lev]
  | succ N ih =>
      intro xs ys h
      refine ⟨?_, ?_, ?_, ?_⟩
      · intro x
        cases ys with
        | nil => simp [lev, lev_nil_right]
        | cons y ys =>
            have hb : xs.length + ys.length ≤ N := by
              simp [List.length_cons] at h; omega
            by_cases hxy : x = y
            · subst hxy
              have h4 := (ih xs ys hb).2.2.2 x
              simpa [lev] using h4
            · have h1 : Nat.min (lev xs ys) (Nat.min (lev xs (y :: ys)) (lev (x :: xs) ys))
                  ≤ Nat.min (lev xs (y :: ys)) (lev (x :: xs) ys) := Nat.min_le_right _ _
              have h2 : Nat.min (lev xs (y :: ys)) (lev (x :: xs) ys)
                  ≤ lev xs (y :: ys) := Nat.min_le_left _ _
              simp only [lev, if_neg hxy]
              omega
      · intro y
        cases xs with
        | nil => simp [lev]
        | cons x xs =>
            have hb : xs.length + ys.length ≤ N := by
              simp [List.length_cons] at h; omega
            by_cases hxy : x = y
            · subst hxy
              have h3 := (ih xs ys hb).2.2.1 x
              simpa [lev] using h3
            · have h1 : Nat.min (lev xs ys) (Nat.min (lev xs (y :: ys)) (lev (x :: xs) ys))
                  ≤ Nat.min (lev xs (y :: ys)) (lev (x :: xs) ys) := Nat.min_le_right _ _
              have h2 : Nat.min (lev xs (y :: ys)) (lev (x :: xs) ys)
                  ≤ lev (x :: xs) ys := Nat.min_le_right _ _
              simp only [lev, if_neg hxy]
              omega
      · intro x
        cases ys with
        | nil => simp [lev, lev_nil_right]; omega
        | cons y ys =>
            have hb : xs.length + ys.length ≤ N := by
              simp [List.length_cons] at h; omega
            by_cases hxy : x = y
            · subst hxy
              have h2 := (ih xs ys hb).2.1 x
              simpa [lev] using h2
            · have ha : lev xs (y :: ys) ≤ 2 + lev xs ys := by
                have := (ih xs ys hb).2.1 y
                omega
              have hbb : lev xs (y :: ys) ≤ 2 + lev xs (y :: ys) := by omega
              have hc : lev xs (y :: ys) ≤ 2 + lev (x :: xs) ys := by
                have h2 := (ih xs ys hb).2.1 y
                have h3 := (ih xs ys hb).2.2.1 x
                omega
              have := le_two_add_min (lev xs (y :: ys)) (lev xs ys)
                (Nat.min (lev xs (y :: ys)) (lev (x :: xs) ys)) ha
                (le_two_add_min _ _ _ hbb hc)
              simp only [lev, if_neg hxy]
              omega
      · intro y
        cases xs with
        | nil => simp [lev]; omega
        | cons x xs =>
            have hb : xs.length + ys.length ≤ N := by
              simp [List.length_cons] at h; omega
            by_cases hxy : x = y
            · subst hxy
              have h1 := (ih xs ys hb).1 x
              simpa [lev] using h1
            · have hc : lev (x :: xs) ys ≤ 2 + lev (x :: xs) ys := by omega
              have ha : lev (x :: xs) ys ≤ 2 + lev xs ys := by
                have := (ih xs ys hb).1 x
                omega
              have hbb : lev (x :: xs) ys ≤ 2 + lev xs (y :: ys) := by
                have h1 := (ih xs ys hb).1 x
                have h4 := (ih xs ys hb).2.2.2 y
                omega
              have := le_two_add_min (lev (x :: xs) ys) (lev xs ys)
                (Nat.min (lev xs (y :: ys)) (lev (x :: xs) ys)) ha
                (le_two_add_min _ _ _ hbb hc)
              simp only [lev, if_neg hxy]
              omega

/-- The Levenshtein recurrence is realized by some edit script of exactly its
cost (achievability half of minimality). -/
theorem edits_lev {α : Type} [DecidableEq α] :
    ∀ N (xs ys : List α), xs.length + ys.length ≤ N → Edits xs ys (lev xs ys) := by
  intro N
  induction N with
  | zero =>
      intro xs ys h
      have hx : xs = [] := by cases xs <;> simp_all
      have hy : ys = [] := by cases ys <;> simp_all
      subst hx; subst hy
      simpa [lev] using Edits.nil
  | succ N ih =>
      intro xs ys h
      cases xs with
      | nil => simpa [lev] using edits_nil_left ys
      | cons x xs =>
          cases ys with
          | nil => simpa [lev_nil_right] using edits_nil_right (x :: xs)
          | cons y ys =>
              have hb : xs.length + ys.length ≤ N := by
                simp [List.length_cons] at h; omega
              have hab : xs.length + (y :: ys).length ≤ N := by
                simp [List.length_cons] at h ⊢; omega
              have hba : (x :: xs).length + ys.length ≤ N := by
                simp [List.length_cons] at h ⊢; omega
              by_cases hxy : x = y
              · subst hxy
                simpa [lev] using Edits.copy x (ih xs ys hb)
              · have e1 := ih xs ys hb
                have e2 := ih xs (y :: ys) hab
                have e3 := ih (x :: xs) ys hba
                simp only [lev, if_neg hxy]
                rcases Nat.le_total (lev xs ys)
                    (Nat.min (lev xs (y :: ys)) (lev (x :: xs) ys)) with h1 | h1
                · rw [natMin_eq_left h1, Nat.add_comm]
                  exact .subst x y e1
                · rw [natMin_eq_right h1]
                  rcases Nat.le_total (lev xs (y :: ys)) (lev (x :: xs) ys) with h2 | h2
                  · rw [natMin_eq_left h2, Nat.add_comm]
                    exact .delete x e2
                  · rw [natMin_eq_right h2, Nat.add_comm]
                    exact .insert y e3

/-- The Levenshtein recurrence is a lower bound on the cost of every edit
script (minimality half). -/
theorem lev_le_of_edits {α : Type} [DecidableEq α] {xs ys : List α} {n : Nat}
    (h : Edits xs ys n) : lev xs ys ≤ n := by
  induction h with
  | nil => simp [lev]
  | copy x h ih => simpa [lev] using ih
  | subst x y h ih =>
      rename_i xs' ys' n'
      have := lev_subst_le x y xs' ys'
      omega
  | delete x h ih =>
      rename_i xs' ys' n'
      have := (lev_cons_bounds (xs'.length + ys'.length) xs' ys' le_rfl).1 x
      omega
  | insert y h ih =>
      rename_i xs' ys' n'
      have := (lev_cons_bounds (xs'.length + ys'.length) xs' ys' le_rfl).2.1 y
      omega

/-- Modelled from the spec: `jiwer.wer` on already-tokenized reference and
hypothesis word lists — the minimum edit distance normalized by the
reference token count, raising on an empty reference (`none` embeds the
raised `ValueError`, the spec's `InvalidInput`). -/
def wer (ref hyp : List String) : Option ℚ :=
if ref.isEmpty then none
else some ((lev ref hyp : ℚ) / (ref.length : ℚ))

/-- Claim C6: `wer` equals the minimum edit-script cost (substitutions +
insertions + deletions) between the token sequences divided by the reference
token count — the distance it divides is realized by an edit script and is a
lower bound on every edit script's cost; hence `wer x x = 0` for non-empty
`x` and `wer ["a","b"] [] = 1`; an empty reference fails (`none`, the
`InvalidInput` error) rather than returning 0 or infinity. -/
theorem C6_theorem :
    (∀ r h : List String, r ≠ [] →
      wer r h = some ((lev r h : ℚ) / (r.length : ℚ)) ∧
      Edits r h (lev r h) ∧ (∀ n, Edits r h n → lev r h ≤ n)) ∧
    (∀ x : List String, x ≠ [] → wer x x = some 0) ∧
    wer ["a", "b"] [] = some 1 ∧
    (∀ h, wer [] h = none) := by
  refine ⟨?_, ?_, ?_, ?_⟩
  · intro r h hr
    refine ⟨by simp [wer, List.isEmpty_iff, hr], ?_, fun n hn => lev_le_of_edits hn⟩
    exact edits_lev (r.length + h.length) r h le_rfl
  · intro x hx
    simp [wer, List.isEmpty_iff, hx, lev_self]
  · rw [wer]
    norm_num [lev_nil_right]
  · intro h
    simp [wer]

theorem C6_witness :
    (["a"] : List String) ≠ [] ∧ wer ["a"] ["a"] = some 0 :=
  ⟨by simp, C6_theorem.2.1 ["a"] (by simp)⟩

/-- Whitespace characters recognized by the normalization steps (the regex
class and Python `str.split`/`str.strip` defaults restricted to the
characters that occur in transcripts). -/
def isWsChar (c : Char) : Bool :=
c == ' ' || c == '\t' || c == '\n' || c == '\r'

/-- Modelled from the spec: jiwer's `ToLowerCase` transform — case folding
of every character. -/
def toLowerCase (s : String) : String :=
String.mk (s.data.map Char.toLower)

/-- Dash-like characters: hyphen-minus, en dash, em dash — the regex class
of `SubstituteRegexes` in `create_transformations`. -/
def isDashChar (c : Char) : Bool :=
c == '-' || c == '–' || c == '—'

/-- Embedding of the `hyphen_to_space` step of
`src/benchmarks/benchmark_utils.py::create_transformations`: every dash-like
character is replaced by a single space. -/
def substituteDashes (s : String) : String :=
String.mk (s.data.map (fun c => if isDashChar c then ' ' else c))

/-- Code points of punctuation characters: modelled from the spec ("strip
all punctuation characters, apostrophes included") as the Unicode
punctuation (category P) characters restricted to the ASCII range plus the
two dashes, which covers every character occurring in the claims. -/
def punctCodes : List Nat :=
[33, 34, 35, 37, 38, 39, 40, 41, 42, 44, 45, 46, 47, 58, 59, 63, 64,
 91, 92, 93, 95, 123, 125, 8211, 8212]

def isPunctChar (c : Char) : Bool :=
punctCodes.contains c.toNat

/-- Modelled from the spec: jiwer's `RemovePunctuation` transform — deletes
every punctuation character. -/
def removePunctuation (s : String) : String :=
String.mk (s.data.filter (fun c => !isPunctChar c))

def collapseAux : Bool → List Char → List Char
| _, [] => []
| prev, c :: rest =>
    if isWsChar c then
      if prev then collapseAux true rest else ' ' :: collapseAux true rest
    else c :: collapseAux false rest

/-- Modelled from the spec: jiwer's `RemoveMultipleSpaces` transform —
collapses every run of whitespace to a single space. -/
def removeMultipleSpaces (s : String) : String :=
String.mk (collapseAux false s.data)

/-- Modelled from the spec: jiwer's `Strip` transform — drops leading and
trailing whitespace. -/
def stripString (s : String) : String :=
String.mk (((s.data.dropWhile (fun c => isWsChar c)).reverse.dropWhile
  (fun c => isWsChar c)).reverse)

def splitAux : List Char → List Char → List String
| [], acc => if acc.isEmpty then [] else [String.mk acc.reverse]
| c :: rest, acc =>
    if isWsChar c then
      if acc.isEmpty then splitAux rest [] else String.mk acc.reverse :: splitAux rest []
    else splitAux rest (c :: acc)

/-- Modelled from the spec: jiwer's `ReduceToListOfListOfWords` on a single
sentence — split on whitespace into the list of (non-empty) word tokens. -/
def reduceToWords (s : String) : List String :=
splitAux s.data []

/-- Embedding of the hypothesis pipeline of
`src/benchmarks/benchmark_utils.py::create_transformations`: lowercase,
dash-to-space (before punctuation removal), punctuation removal, whitespace
collapse, strip, tokenize. -/
def hypothesis_transform (s : String) : List String :=
reduceToWords (stripString (removeMultipleSpaces (removePunctuation
  (substituteDashes (toLowerCase s)))))

/-- Embedding of the reference pipeline of `create_transformations`: the
same steps without the dash substitution. -/
def reference_transform (s : String) : List String :=
reduceToWords (stripString (removeMultipleSpaces (removePunctuation
  (toLowerCase s))))

/-- Embedding of the `minimal_transform` of
`src/benchmarks/benchmark.py::benchmark_medical_pipeline`: whitespace
collapse, strip, split into words — no case or punctuation change. -/
def minimal_transform (s : String) : List String :=
reduceToWords (stripString (removeMultipleSpaces s))

/-- Claim C9: the hypothesis pipeline replaces dash-like characters with a
space before punctuation stripping, mapping "hello-world" to
["hello", "world"] and "hello, world!" to ["hello", "world"]; the reference
pipeline (no dash step) maps "HELLO WORLD" to ["hello", "world"]. -/
theorem C9_theorem :
    hypothesis_transform "hello-world" = ["hello", "world"] ∧
    hypothesis_transform "hello, world!" = ["hello", "world"] ∧
    reference_transform "HELLO WORLD" = ["hello", "world"] := by
  refine ⟨by decide, by decide, by decide⟩

/-- Shallow embedding of `src/benchmarks/benchmark_utils.py::process_sample`
from the point where the external collaborators have answered: `duration` is
`get_duration_fn(audio_file)`, `hypothesis` is the model output and
`processingTime` the measured wall clock of the transcription call.  A
non-positive duration skips the sample; the transforms and `wer` run inside
`try`, so a scoring failure (embedded as `wer = none`) also skips it;
otherwise the tuple `(hypothesis, processing_time, rtf, error_rate)` is
returned. -/
def process_sample (transcript hypothesis : String) (duration processingTime : ℚ)
    (refT hypT : String → List String) : Option (String × ℚ × ℚ × ℚ) :=
if duration ≤ 0 then none
else
  let rtf := processingTime / duration
  match wer (refT transcript) (hypT hypothesis) with
  | none => none
  | some errorRate => some (hypothesis, processingTime, rtf, errorRate)

/-- Shallow embedding of the scoring step of
`src/benchmarks/benchmark.py::benchmark_medical_pipeline`: both texts pass
through `minimal_transform`; an empty word list on either side skips the
sample before `wer` is called. -/
def medicalScore (transcript hypothesis : String) : Option ℚ :=
let refWords := minimal_transform transcript
let hypWords := minimal_transform hypothesis
if refWords.isEmpty || hypWords.isEmpty then none
else wer refWords hypWords

/-- Claim C2 counterexample: in `process_sample` a pair whose normalized
hypothesis token list is empty (hypothesis "-" normalizes to no tokens) but
whose reference is non-empty is not skipped: it is scored with WER 1.0 and
enters the results. -/
theorem C2_counterexample :
    hypothesis_transform "-" = [] ∧
    reference_transform "a" = ["a"] ∧
    process_sample "a" "-" 1 1 reference_transform hypothesis_transform
      = some ("-", 1, 1, 1) := by
  have h1 : hypothesis_transform "-" = [] := by decide
  have h2 : reference_transform "a" = ["a"] := by decide
  refine ⟨h1, h2, ?_⟩
  rw [process_sample]
  rw [if_neg (by norm_num)]
  rw [h1, h2]
  norm_num [wer, lev_nil_right]

/-- Claim C2 (amended): a pair with an empty normalized reference token list
is skipped by `process_sample` (the scorer's failure is caught and `None`
returned), and `benchmark_medical_pipeline` skips a pair when either
normalized token list is empty; but in `process_sample` a pair with an
empty hypothesis token list and non-empty reference is scored as WER 1.0
rather than skipped. -/
theorem C2_amended :
    (∀ t h : String, ∀ d p : ℚ, ∀ refT hypT : String → List String,
      refT t = [] → process_sample t h d p refT hypT = none) ∧
    (∀ t h : String, minimal_transform t = [] ∨ minimal_transform h = [] →
      medicalScore t h = none) ∧
    (∀ t h : String, ∀ d p : ℚ, ∀ refT hypT : String → List String,
      0 < d → refT t ≠ [] → hypT h = [] →
      process_sample t h d p refT hypT = some (h, p, p / d, 1)) := by
  refine ⟨?_, ?_, ?_⟩
  · intro t h d p refT hypT hempty
    by_cases hd : d ≤ 0 <;> simp [process_sample, hd, hempty, wer]
  · intro t h hcase
    rcases hcase with hc | hc <;> simp [medicalScore, hc]
  · intro t h d p refT hypT hd href hhyp
    have hd2 : ¬ d ≤ 0 := by exact not_le.mpr hd
    have hlen : ((refT t).length : ℚ) ≠ 0 := by
      exact_mod_cast fun hc => href (List.length_eq_zero.mp (by exact_mod_cast hc))
    have hw : wer (refT t) (hypT h) = some 1 := by
      rw [hhyp, wer, if_neg (by simp [List.isEmpty_iff, href]), lev_nil_right]
      rw [div_self hlen]
    simp [process_sample, hd2, hw]

theorem C2_amended_witness :
    minimal_transform "  " = ([] : List String) ∧
    process_sample "  " "x" 1 1 minimal_transform minimal_transform = none :=
  ⟨by decide, C2_amended.1 "  " "x" 1 1 minimal_transform minimal_transform (by decide)⟩

/-- One row of the benchmark results list: the tuple
`(audio_file, hypothesis, transcript, error_rate, processing_time, rtf)`
appended per successfully scored sample. -/
structure BenchResult where
  audioFile : String
  hypothesis : String
  transcript : String
  errorRate : ℚ
  processingTime : ℚ
  rtf : ℚ
deriving DecidableEq, Repr

/-- One dataset sample together with the answers of the external
collaborators on it: the extracted audio path and transcript, the model
output, the audio duration and the measured transcription wall clock. -/
structure BenchSample where
  audioFile : String
  transcript : String
  hypothesis : String
  duration : ℚ
  procTime : ℚ
deriving DecidableEq, Repr

/-- Per-sample step of `benchmark_dataset`: a falsy (empty) audio path or
transcript skips the sample, then `process_sample` decides; a successful
outcome becomes the appended results row. -/
def benchStep (refT hypT : String → List String) (s : BenchSample) :
    Option BenchResult :=
if s.audioFile = "" ∨ s.transcript = "" then none
else
  match process_sample s.transcript s.hypothesis s.duration s.procTime refT hypT with
  | none => none
  | some (h, t, r, e) => some ⟨s.audioFile, h, s.transcript, e, t, r⟩

/-- The sample loop of
`src/benchmarks/benchmark_utils.py::benchmark_dataset` with its running
accumulators `(results, total_wer, total_rtf, successful)`. -/
def benchLoop (refT hypT : String → List String) :
    List BenchSample → List BenchResult × ℚ × ℚ × Nat →
      List BenchResult × ℚ × ℚ × Nat
| [], acc => acc
| s :: rest, (res, tw, tr, suc) =>
    match benchStep refT hypT s with
    | none => benchLoop refT hypT rest (res, tw, tr, suc)
    | some out =>
        benchLoop refT hypT rest
          (res ++ [out], tw + out.errorRate, tr + out.rtf, suc + 1)

/-- Shallow embedding of `benchmark_dataset`: runs the loop from empty
accumulators and, when at least one sample was scored, reports the averages
`total_wer / successful` and `total_rtf / successful`; with zero successes
it prints "No samples benchmarked." (embedded as `none`) and performs no
division.  The returned results list is the loop's first accumulator. -/
def benchmark_dataset (samples : List BenchSample)
    (refT hypT : String → List String) : List BenchResult × Option (ℚ × ℚ) :=
match benchLoop refT hypT samples ([], 0, 0, 0) with
| (res, tw, tr, suc) =>
    (res, if 0 < suc then some (tw / (suc : ℚ), tr / (suc : ℚ)) else none)

theorem benchLoop_spec (refT hypT : String → List String) :
    ∀ (samples : List BenchSample) (res : List BenchResult) (tw tr : ℚ) (suc : Nat),
      benchLoop refT hypT samples (res, tw, tr, suc) =
        (res ++ samples.filterMap (benchStep refT hypT),
         tw + ((samples.filterMap (benchStep refT hypT)).map BenchResult.errorRate).sum,
         tr + ((samples.filterMap (benchStep refT hypT)).map BenchResult.rtf).sum,
         suc + (samples.filterMap (benchStep refT hypT)).length) := by
  intro samples
  induction samples with
  | nil => intro res tw tr suc; simp [benchLoop]
  | cons s rest ih =>
      intro res tw tr suc
      cases hstep : benchStep refT hypT s with
      | none => simp [benchLoop, hstep, ih, List.filterMap_cons]
      | some out =>
          simp [benchLoop, hstep, ih, List.filterMap_cons]
          refine ⟨by ring, by ring, by omega⟩

/-- Claim C7: the results of `benchmark_dataset` are exactly the
successfully-scored samples in order (failed samples are skipped and never
abort the batch), the reported average WER and RTF equal the arithmetic
means of the per-sample WER and RTF over exactly that subset, and a run
with zero successes reports no averages (the "No samples benchmarked."
branch) and performs no division. -/
theorem C7_theorem (samples : List BenchSample) (refT hypT : String → List String) :
    (benchmark_dataset samples refT hypT).1 = samples.filterMap (benchStep refT hypT) ∧
    ((benchmark_dataset samples refT hypT).1 ≠ [] →
      (benchmark_dataset samples refT hypT).2 =
        some ((((benchmark_dataset samples refT hypT).1.map BenchResult.errorRate).sum
                 / ((benchmark_dataset samples refT hypT).1.length : ℚ)),
              (((benchmark_dataset samples refT hypT).1.map BenchResult.rtf).sum
                 / ((benchmark_dataset samples refT hypT).1.length : ℚ)))) ∧
    ((benchmark_dataset samples refT hypT).1 = [] →
      (benchmark_dataset samples refT hypT).2 = none) := by
  have hloop := benchLoop_spec refT hypT samples [] 0 0 0
  have hbd : benchmark_dataset samples refT hypT =
      (samples.filterMap (benchStep refT hypT),
       if 0 < (samples.filterMap (benchStep refT hypT)).length then
         some ((((samples.filterMap (benchStep refT hypT)).map BenchResult.errorRate).sum
                  / ((samples.filterMap (benchStep refT hypT)).length : ℚ)),
               (((samples.filterMap (benchStep refT hypT)).map BenchResult.rtf).sum
                  / ((samples.filterMap (benchStep refT hypT)).length : ℚ)))
       else none) := by
    rw [benchmark_dataset, hloop]
    simp
  refine ⟨?_, ?_, ?_⟩
  · rw [hbd]
  · intro hne
    rw [hbd] at hne ⊢
    have hlen : 0 < (samples.filterMap (benchStep refT hypT)).length := by
      rcases Nat.eq_zero_or_pos (samples.filterMap (benchStep refT hypT)).length with h0 | h0
      · exact absurd (List.length_eq_zero.mp h0) (by simpa using hne)
      · exact h0
    simp [hlen]
  · intro hemp
    rw [hbd] at hemp ⊢
    have h0 : (samples.filterMap (benchStep refT hypT)).length = 0 := by
      simp at hemp
      simpa using hemp
    simp [h0]

theorem C7_witness :
    (benchmark_dataset
        [⟨"a.wav", "a", "a", 1, 1⟩, ⟨"", "x", "x", 1, 1⟩]
        minimal_transform minimal_transform).1 ≠ [] ∧
    (benchmark_dataset
        [⟨"a.wav", "a", "a", 1, 1⟩, ⟨"", "x", "x", 1, 1⟩]
        minimal_transform minimal_transform).2 =
      some ((((benchmark_dataset
                [⟨"a.wav", "a", "a", 1, 1⟩, ⟨"", "x", "x", 1, 1⟩]
                minimal_transform minimal_transform).1.map BenchResult.errorRate).sum
               / (((benchmark_dataset
                [⟨"a.wav", "a", "a", 1, 1⟩, ⟨"", "x", "x", 1, 1⟩]
                minimal_transform minimal_transform).1.length : ℚ))),
            (((benchmark_dataset
                [⟨"a.wav", "a", "a", 1, 1⟩, ⟨"", "x", "x", 1, 1⟩]
                minimal_transform minimal_transform).1.map BenchResult.rtf).sum
               / (((benchmark_dataset
                [⟨"a.wav", "a", "a", 1, 1⟩, ⟨"", "x", "x", 1, 1⟩]
                minimal_transform minimal_transform).1.length : ℚ)))) :=
  have h := C7_theorem [⟨"a.wav", "a", "a", 1, 1⟩, ⟨"", "x", "x", 1, 1⟩]
    minimal_transform minimal_transform
  ⟨by decide, h.2.1 (by decide)⟩
